import Mathlib

/-!
The event pipeline of `backend/pipelined/handle.go`.

A shallow embedding of `handleEvent`, `expandHandlers` and `pipeHandler`, and
the properties of handler resolution and dispatch proved about it.

Modelling decisions.

* `*types.Handler` is an `Option Handler`: `none` is the nil pointer.
* A Go `error` is an `Option String` holding the message: `none` is nil.
* `map[string]*types.Handler` is an association list with at most one entry per
  key, kept in insertion order. A Go map has no order of its own. The order in
  which `handleEvent` ranges over the resolved map is a parameter
  (`RangeOrder`). The order in which `expandHandlers` ranges over a nested
  result while merging it only decides the position of the new entries in the
  list, never which entries the map holds, since the keys of the nested result
  are distinct; the list order is used for nothing else.
* `level` is a Go `int`; it is an `Int` here. A call at a level above 3 returns
  at once, and a call at a level of at most 3 adds one per element of a slice,
  so the counter cannot wrap around.
* The handler store, the event mutator and the execution primitive are
  collaborators whose code is outside `handle.go`; they are fields of
  `Pipelined`.
* `log.Println` and `log.Printf` write to the process log; the text written is
  left out. One of them can stop the program: the `log.Printf` of `pipeHandler`
  reads `result.Status` when the error is nil, which panics when the result
  pointer is nil too. That panic is modelled (`Run.panicked`): `handleEvent`
  then never returns.
* `handleEvent` is given a non-nil event, and the `Pipe` of a handler is a
  value, not a pointer.
-/

namespace Sensu

/-- Modelled from the spec: the declaration of the pipe part of `types.Handler`
is not among the sources. It holds `Command`, a shell command line, and
`Timeout`, in seconds; these are the two fields `pipeHandler` reads. -/
structure HandlerPipe where
  Command : String
  Timeout : Int
  deriving DecidableEq, Repr, Inhabited

/-- Modelled from the spec: the declaration of `types.Handler` is not among the
sources. The fields are those the pipeline reads (`Name`, `Type`, `Handlers`,
`Pipe`) and the `Mutator` reference of the data model. The field `Type` is
spelled `Type_`, as `Type` is reserved. -/
structure Handler where
  Name : String
  Type_ : String
  Handlers : List String
  Pipe : HandlerPipe
  Mutator : String
  deriving DecidableEq, Repr, Inhabited

/-- Modelled from the spec: the declaration of the check embedded in
`types.Event` is not among the sources. It carries the ordered list of handler
names, the only field the pipeline reads. -/
structure Check where
  Handlers : List String
  deriving DecidableEq, Repr, Inhabited

/-- Modelled from the spec: the declaration of `types.Event` is not among the
sources. The pipeline reads `event.Check.Handlers` only. -/
structure Event where
  Check : Check
  deriving DecidableEq, Repr, Inhabited

/-- A byte slice `[]byte`. -/
abbrev Bytes := List Nat

/-- Modelled from the spec: the declaration of `command.Execution` is not among
the sources. `pipeHandler` sets `Command`, `Timeout` and `Input` (kept here as
the bytes that `string(eventData[:])` copies) on a fresh value and reads
`Status` and `Output` from the value the primitive returns. -/
structure Execution where
  Command : String
  Timeout : Int
  Input : Bytes
  Status : Int
  Output : String
  deriving DecidableEq, Repr, Inhabited

/-- How the run of a function body ends: it returns a value, or it panics on a
nil pointer dereference and does not return. -/
inductive Run (α : Type) where
  | returned (value : α)
  | panicked
  deriving DecidableEq, Repr

/-- The map `map[string]*types.Handler`, as an association list. -/
abbrev HandlerMap := List (String × Handler)

/-- The handler store reader `p.Store`: `GetHandlerByName` returns a handler
pointer and an error. Its code is outside the package; it is a parameter. -/
structure Store where
  GetHandlerByName : String → Option Handler × Option String

/-- The receiver `p *Pipelined` with the collaborators `handleEvent` calls:
the store, the method `mutateEvent`, which returns a payload and an error, and
the function `command.ExecuteCommand`, which returns a pointer to the
execution and an error. Their code is not among the sources; they are parameters. -/
structure Pipelined where
  Store : Store
  mutateEvent : Handler → Event → Bytes × Option String
  ExecuteCommand : Execution → Option Execution × Option String

/-- The message of the error returned by `expandHandlers` when `level > 3`. -/
def errTooDeep : String := "handler sets cannot be deeply nested"

/-- The message of the error returned by `handleEvent` in the `default` case. -/
def errUnknownType : String := "unknown handler type"

/-- The statement `if _, ok := expanded[name]; !ok { expanded[name] = h }`. -/
def insertIfAbsent (expanded : HandlerMap) (name : String) (h : Handler) : HandlerMap :=
  if name ∈ expanded.map Prod.fst then expanded else expanded ++ [(name, h)]

/-- The loop `for name, setHandler := range setHandlers { ... }` that copies the
entries of a nested result whose key is not yet present. -/
def mergeInto (expanded : HandlerMap) (setHandlers : HandlerMap) : HandlerMap :=
  setHandlers.foldl (fun acc e => insertIfAbsent acc e.1 e.2) expanded

/-- The entries a `range` over a returned map visits: none for the nil map. -/
def entries (m : Option HandlerMap) : HandlerMap :=
  match m with
  | none => []
  | some l => l

/-- The first component of the termination measure of `expandHandlers`. -/
def callRank (level : Int) : Nat :=
  if 3 < level then 0 else 2 * (4 - level).toNat

/-- The first component of the termination measure of `expandLoop`. -/
def loopRank (level : Int) : Nat :=
  if 3 < level then 1 else 2 * (4 - level).toNat - 1

mutual

/-- The function `expandHandlers`: the depth check, then the loop over the names
started with an empty map. -/
def expandHandlers (p : Pipelined) (handlers : List String) (level : Int) :
    Option HandlerMap × Option String :=
  if 3 < level then
    (none, some errTooDeep)
  else
    (some (expandLoop p handlers level []), none)
termination_by (callRank level, 0)
decreasing_by
  simp only [Prod.lex_def, callRank, loopRank]
  split_ifs
  all_goals omega

/-- The body of `for _, handlerName := range handlers` in `expandHandlers`, with
the two variables it updates: `level` (by `level++`) and `expanded`. -/
def expandLoop (p : Pipelined) (handlers : List String) (level : Int)
    (expanded : HandlerMap) : HandlerMap :=
  match handlers with
  | [] => expanded
  | handlerName :: rest =>
    match (p.Store.GetHandlerByName handlerName).1 with
    | none => expandLoop p rest level expanded
    | some handler =>
      if handler.Type_ = "set" then
        if (expandHandlers p handler.Handlers (level + 1)).2 ≠ none then
          expandLoop p rest (level + 1) expanded
        else
          expandLoop p rest (level + 1)
            (mergeInto expanded (entries (expandHandlers p handler.Handlers (level + 1)).1))
      else
        expandLoop p rest level (insertIfAbsent expanded handler.Name handler)
termination_by (loopRank level, handlers.length)
decreasing_by
  all_goals simp only [Prod.lex_def, callRank, loopRank, List.length_cons, true_and]
  all_goals split_ifs
  all_goals omega

end

/-- The function `pipeHandler`: builds the execution request from the handler's
pipe and the payload and runs it. When the primitive reports an error it is
logged; otherwise `result.Status` and `result.Output` are logged, which panics
when `result` is nil. Then it returns what the primitive returned. -/
def pipeHandler (p : Pipelined) (handler : Handler) (eventData : Bytes) :
    Run (Option Execution × Option String) :=
  let handlerExec : Execution :=
    { Command := handler.Pipe.Command, Timeout := handler.Pipe.Timeout, Input := eventData,
      Status := 0, Output := "" }
  match p.ExecuteCommand handlerExec with
  | (result, some err) => Run.returned (result, some err)
  | (none, none) => Run.panicked
  | (some result, none) => Run.returned (some result, none)

/-- One invocation of `pipeHandler` made by `handleEvent`: its two arguments and
how it ended. -/
structure PipeCall where
  handler : Handler
  eventData : Bytes
  result : Run (Option Execution × Option String)
  deriving DecidableEq, Repr

/-- The body of `for _, handler := range handlers` in `handleEvent`, over the
entries in the order they are visited; `calls` records the `pipeHandler`
invocations made so far. Returns them with the way `handleEvent` ends: it
returns an error or nil, or it panics inside `pipeHandler`. -/
def handleLoop (p : Pipelined) (event : Event) (visited : HandlerMap)
    (calls : List PipeCall) : List PipeCall × Run (Option String) :=
  match visited with
  | [] => (calls, Run.returned none)
  | (_, handler) :: rest =>
    if (p.mutateEvent handler event).2 ≠ none then
      handleLoop p event rest calls
    else if handler.Type_ = "pipe" then
      match pipeHandler p handler (p.mutateEvent handler event).1 with
      | Run.panicked =>
        (calls ++ [{ handler := handler, eventData := (p.mutateEvent handler event).1,
                     result := Run.panicked }], Run.panicked)
      | Run.returned r =>
        handleLoop p event rest
          (calls ++ [{ handler := handler, eventData := (p.mutateEvent handler event).1,
                       result := Run.returned r }])
    else
      (calls, Run.returned (some errUnknownType))

/-- An iteration order of Go's `range` over a map: some rearrangement of the
entries, each visited once. -/
structure RangeOrder where
  visit : HandlerMap → HandlerMap
  perm : ∀ m, (visit m).Perm m

/-- The resolved handler set of an event, the map `handleEvent` ranges over:
`handlers, _ := p.expandHandlers(event.Check.Handlers, 1)`. The error is
dropped, and a nil map has no entries. -/
def resolved (p : Pipelined) (event : Event) : HandlerMap :=
  entries (expandHandlers p event.Check.Handlers 1).1

/-- The function `handleEvent`: expands the handlers of the event's check at
level 1 and ranges over the resolved map in the order `range`. Returns the
`pipeHandler` invocations made and the way the function ends. -/
def handleEvent (p : Pipelined) (range : RangeOrder) (event : Event) :
    List PipeCall × Run (Option String) :=
  handleLoop p event (range.visit (resolved p event)) []

mutual

/-- The reference resolver, written from the words of the design of the handler
resolver: the depth is an immutable value of each call, and every nested list
is expanded at `depth + 1`. -/
def expandRef (p : Pipelined) (names : List String) (depth : Int) :
    Option HandlerMap × Option String :=
  if 3 < depth then
    (none, some errTooDeep)
  else
    (some (expandRefLoop p names depth []), none)
termination_by (callRank depth, 0)
decreasing_by
  simp only [Prod.lex_def, callRank, loopRank]
  split_ifs
  all_goals omega

/-- The per-name step of the reference resolver; `depth` never changes. -/
def expandRefLoop (p : Pipelined) (names : List String) (depth : Int)
    (acc : HandlerMap) : HandlerMap :=
  match names with
  | [] => acc
  | name :: rest =>
    match (p.Store.GetHandlerByName name).1 with
    | none => expandRefLoop p rest depth acc
    | some handler =>
      if handler.Type_ = "set" then
        if (expandRef p handler.Handlers (depth + 1)).2 ≠ none then
          expandRefLoop p rest depth acc
        else
          expandRefLoop p rest depth
            (mergeInto acc (entries (expandRef p handler.Handlers (depth + 1)).1))
      else
        expandRefLoop p rest depth (insertIfAbsent acc handler.Name handler)
termination_by (loopRank depth, names.length)
decreasing_by
  all_goals simp only [Prod.lex_def, callRank, loopRank, List.length_cons, true_and]
  all_goals split_ifs
  all_goals omega

end

/-! ## Notions used to state the properties -/

/-- Whether the store resolves `n` to a handler of type `set`. -/
def isSetName (p : Pipelined) (n : String) : Bool :=
  match (p.Store.GetHandlerByName n).1 with
  | some h => decide (h.Type_ = "set")
  | none => false

/-- The number of names of the list that the store resolves to a set handler. -/
def setCount (p : Pipelined) (names : List String) : Nat :=
  (names.filter (isSetName p)).length

/-- Whether the store returns a handler for `n`. -/
def resolves (p : Pipelined) (n : String) : Bool :=
  (p.Store.GetHandlerByName n).1.isSome

/-- The keys of a map. -/
def keys (m : HandlerMap) : List String := m.map Prod.fst

/-- What every resolved handler set satisfies: no key occurs twice, no entry is
a set handler, and every entry is stored under its handler's own name. -/
def WellResolved (m : HandlerMap) : Prop :=
  (keys m).Nodup ∧ ∀ e ∈ m, e.2.Type_ ≠ "set" ∧ e.1 = e.2.Name

/-- Whether `handleEvent` aborts on this entry: the mutation succeeds and the
type is not `pipe`. -/
def isFatal (p : Pipelined) (event : Event) (e : String × Handler) : Bool :=
  decide ((p.mutateEvent e.2 event).2 = none) && !decide (e.2.Type_ = "pipe")

/-- The contract of the execution primitive: it returns an execution, or an
error when the process could not be started or ran out of time; a nil error
comes with a non-nil execution. -/
def ExecContract (p : Pipelined) : Prop :=
  ∀ e : Execution, (p.ExecuteCommand e).2 = none → (p.ExecuteCommand e).1 ≠ none

/-- The `pipeHandler` invocations for the entries of a list, in order: one for
each entry whose mutation succeeds, with the mutated payload. -/
def dispatchCalls (p : Pipelined) (event : Event) (l : HandlerMap) : List PipeCall :=
  l.filterMap (fun e =>
    if (p.mutateEvent e.2 event).2 = none then
      some { handler := e.2, eventData := (p.mutateEvent e.2 event).1,
             result := pipeHandler p e.2 (p.mutateEvent e.2 event).1 }
    else none)

/-- The first name of a chain: its first set, or the leaf when it has no set. -/
def chainHead (sets : List String) (leafName : String) : String :=
  match sets with
  | [] => leafName
  | s :: _ => s

/-- A chain in the store: every name of `sets` resolves to a set handler that
lists only the next element of the chain, and `leafName` resolves to the pipe
handler `leaf`. -/
def IsChain (p : Pipelined) (sets : List String) (leafName : String) (leaf : Handler) : Prop :=
  match sets with
  | [] => (p.Store.GetHandlerByName leafName).1 = some leaf ∧ leaf.Type_ = "pipe"
  | s :: rest =>
    (∃ h, (p.Store.GetHandlerByName s).1 = some h ∧ h.Type_ = "set"
      ∧ h.Handlers = [chainHead rest leafName])
    ∧ IsChain p rest leafName leaf

/-! ## Concrete stores, mutators and events -/

/-- A pipe handler named `n` that runs `cat`. -/
def pipeOf (n : String) : Handler :=
  { Name := n, Type_ := "pipe", Handlers := [], Pipe := { Command := "cat", Timeout := 0 },
    Mutator := "" }

/-- A set handler named `n` listing the names `l`. -/
def setOf (n : String) (l : List String) : Handler :=
  { Name := n, Type_ := "set", Handlers := l, Pipe := { Command := "", Timeout := 0 },
    Mutator := "" }

/-- A handler named `n` of the unsupported type `webhook`. -/
def webhookOf (n : String) : Handler :=
  { Name := n, Type_ := "webhook", Handlers := [], Pipe := { Command := "", Timeout := 0 },
    Mutator := "" }

/-- A store read from a table: a name that is not in the table is not found. -/
def tableStore (table : List (String × Handler)) : Store :=
  { GetHandlerByName := fun n =>
      match table.find? (fun e => e.1 == n) with
      | some e => (some e.2, none)
      | none => (none, none) }

/-- A mutator that turns every event into the payload `{}` and never fails. -/
def plainMutator (_ : Handler) (_ : Event) : Bytes × Option String :=
  ([123, 125], none)

/-- A mutator that fails for the handler named `bad` and succeeds otherwise. -/
def failingFor (bad : String) (h : Handler) (_ : Event) : Bytes × Option String :=
  if h.Name = bad then ([], some "mutator failed") else ([123, 125], none)

/-- An execution primitive that echoes its input with status 0. -/
def echoCommand (e : Execution) : Option Execution × Option String :=
  (some { e with Status := 0, Output := String.mk (e.Input.map Char.ofNat) }, none)

/-- An execution primitive that breaks its contract: no execution, no error. -/
def nilCommand (_ : Execution) : Option Execution × Option String :=
  (none, none)

/-- Three sibling sets `s1`, `s2`, `s3`, each listing one pipe handler. -/
def siblingPipeline : Pipelined :=
  { Store := tableStore
      [("s1", setOf "s1" ["p1"]), ("s2", setOf "s2" ["p2"]), ("s3", setOf "s3" ["p3"]),
       ("p1", pipeOf "p1"), ("p2", pipeOf "p2"), ("p3", pipeOf "p3")]
    mutateEvent := plainMutator
    ExecuteCommand := echoCommand }

/-- The chain `s0 → s1 → s2 → leaf`. -/
def chainPipeline : Pipelined :=
  { Store := tableStore
      [("s0", setOf "s0" ["s1"]), ("s1", setOf "s1" ["s2"]), ("s2", setOf "s2" ["leaf"]),
       ("leaf", pipeOf "leaf")]
    mutateEvent := plainMutator
    ExecuteCommand := echoCommand }

/-- Two pipe handlers `a` and `b`; the name `missing` is not in the store. -/
def abPipeline : Pipelined :=
  { Store := tableStore [("a", pipeOf "a"), ("b", pipeOf "b")]
    mutateEvent := plainMutator
    ExecuteCommand := echoCommand }

/-- The handler `&types.Handler{}`: every field has its zero value. -/
def emptyHandler : Handler :=
  { Name := "", Type_ := "", Handlers := [], Pipe := { Command := "", Timeout := 0 },
    Mutator := "" }

/-- A store holding the pipe handler `b`, whose lookup of `a` fails to decode the
stored value and returns an empty handler together with the error, the way
`GetOrganizationByName` of the etcd store returns `&types.Organization{}, err`. -/
def errorWithHandlerPipeline : Pipelined :=
  { Store :=
      { GetHandlerByName := fun n =>
          if n = "a" then (some emptyHandler, some "unexpected end of JSON input")
          else (tableStore [("b", pipeOf "b")]).GetHandlerByName n }
    mutateEvent := plainMutator
    ExecuteCommand := echoCommand }

/-- A store that returns, for the name `alias`, the pipe handler named `real`. -/
def aliasPipeline : Pipelined :=
  { Store := tableStore [("alias", pipeOf "real")]
    mutateEvent := plainMutator
    ExecuteCommand := echoCommand }

/-- The set `both` lists `s1` and `s2`, which both list the leaf `h`; the
mutator fails for the pipe handler `b`. -/
def sharedLeafPipeline : Pipelined :=
  { Store := tableStore
      [("both", setOf "both" ["s1", "s2"]), ("s1", setOf "s1" ["h"]),
       ("s2", setOf "s2" ["h"]), ("h", pipeOf "h"), ("b", pipeOf "b")]
    mutateEvent := failingFor "b"
    ExecuteCommand := echoCommand }

/-- A pipe handler `a`, a webhook handler `w` and a pipe handler `c`; the
mutator never fails. -/
def webhookPipeline : Pipelined :=
  { Store := tableStore
      [("a", pipeOf "a"), ("w", webhookOf "w"), ("c", pipeOf "c")]
    mutateEvent := plainMutator
    ExecuteCommand := echoCommand }

/-- As `webhookPipeline`, with a mutator that fails for the webhook handler. -/
def webhookMutationFails : Pipelined :=
  { Store := tableStore
      [("a", pipeOf "a"), ("w", webhookOf "w"), ("c", pipeOf "c")]
    mutateEvent := failingFor "w"
    ExecuteCommand := echoCommand }

/-- Two pipe handlers `a` and `b`; the lookup of `down` reports a storage error
and returns no handler. -/
def errorOnlyPipeline : Pipelined :=
  { Store :=
      { GetHandlerByName := fun n =>
          if n = "down" then (none, some "etcdserver: request timed out")
          else (tableStore [("a", pipeOf "a"), ("b", pipeOf "b")]).GetHandlerByName n }
    mutateEvent := plainMutator
    ExecuteCommand := echoCommand }

/-- As `abPipeline`, with the execution primitive that breaks its contract. -/
def nilResultPipeline : Pipelined :=
  { Store := tableStore [("a", pipeOf "a"), ("b", pipeOf "b")]
    mutateEvent := plainMutator
    ExecuteCommand := nilCommand }

/-- An event whose check names the given handlers. -/
def eventFor (names : List String) : Event :=
  { Check := { Handlers := names } }

/-- The iteration order that visits the entries in the order of insertion. -/
def insertionOrder : RangeOrder :=
  { visit := fun m => m
    perm := fun m => List.Perm.refl m }

/-- The iteration order that visits the entries in reverse. -/
def reverseOrder : RangeOrder :=
  { visit := List.reverse
    perm := List.reverse_perm }

/-! ## Unfolding the resolver -/

theorem expandHandlers_deep (p : Pipelined) (hs : List String) (l : Int) (h : 3 < l) :
    expandHandlers p hs l = (none, some errTooDeep) := by
  rw [expandHandlers, if_pos h]

theorem expandHandlers_shallow (p : Pipelined) (hs : List String) (l : Int) (h : l ≤ 3) :
    expandHandlers p hs l = (some (expandLoop p hs l []), none) := by
  rw [expandHandlers, if_neg (by omega)]

theorem expandLoop_nil (p : Pipelined) (l : Int) (acc : HandlerMap) :
    expandLoop p [] l acc = acc := by
  rw [expandLoop]

theorem expandLoop_missing (p : Pipelined) (n : String) (rest : List String) (l : Int)
    (acc : HandlerMap) (h : (p.Store.GetHandlerByName n).1 = none) :
    expandLoop p (n :: rest) l acc = expandLoop p rest l acc := by
  rw [expandLoop]
  simp only [h]

theorem expandLoop_leaf (p : Pipelined) (n : String) (rest : List String) (l : Int)
    (acc : HandlerMap) (hd : Handler) (h : (p.Store.GetHandlerByName n).1 = some hd)
    (ht : hd.Type_ ≠ "set") :
    expandLoop p (n :: rest) l acc = expandLoop p rest l (insertIfAbsent acc hd.Name hd) := by
  rw [expandLoop]
  simp only [h, if_neg ht]

theorem expandLoop_set (p : Pipelined) (n : String) (rest : List String) (l : Int)
    (acc : HandlerMap) (hd : Handler) (h : (p.Store.GetHandlerByName n).1 = some hd)
    (ht : hd.Type_ = "set") :
    expandLoop p (n :: rest) l acc =
      expandLoop p rest (l + 1)
        (mergeInto acc (entries (expandHandlers p hd.Handlers (l + 1)).1)) := by
  rw [expandLoop]
  simp only [h, if_pos ht]
  by_cases hl : 3 < l + 1
  · simp [expandHandlers_deep p _ _ hl, entries, mergeInto]
  · simp [expandHandlers_shallow p _ _ (by omega : l + 1 ≤ 3)]

/-! ## The loop of the resolver, piece by piece -/

/-- One turn of the loop of `expandHandlers`, split off from the rest. -/
theorem expandLoop_cons (p : Pipelined) (n : String) (rest : List String) (l : Int)
    (acc : HandlerMap) :
    expandLoop p (n :: rest) l acc
      = expandLoop p rest (l + ((setCount p [n] : Nat) : Int)) (expandLoop p [n] l acc) := by
  cases h : (p.Store.GetHandlerByName n).1 with
  | none =>
    rw [expandLoop_missing p n rest l acc h, expandLoop_missing p n [] l acc h, expandLoop_nil]
    simp [setCount, isSetName, h]
  | some hd =>
    by_cases ht : hd.Type_ = "set"
    · rw [expandLoop_set p n rest l acc hd h ht, expandLoop_set p n [] l acc hd h ht,
        expandLoop_nil]
      simp [setCount, isSetName, h, ht]
    · rw [expandLoop_leaf p n rest l acc hd h ht, expandLoop_leaf p n [] l acc hd h ht,
        expandLoop_nil]
      simp [setCount, isSetName, h, ht]

theorem setCount_cons (p : Pipelined) (n : String) (rest : List String) :
    setCount p (n :: rest) = setCount p [n] + setCount p rest := by
  simp only [setCount, List.filter_cons, List.filter_nil]
  split
  · simp
    omega
  · simp

theorem setCount_append (p : Pipelined) (a b : List String) :
    setCount p (a ++ b) = setCount p a + setCount p b := by
  simp [setCount]

/-- The loop over `pre ++ rest` is the loop over `rest`, started from the map
the loop over `pre` leaves and from the level it has reached. -/
theorem expandLoop_append (p : Pipelined) (pre rest : List String) (l : Int)
    (acc : HandlerMap) :
    expandLoop p (pre ++ rest) l acc
      = expandLoop p rest (l + ((setCount p pre : Nat) : Int)) (expandLoop p pre l acc) := by
  induction pre generalizing l acc with
  | nil => simp [setCount, expandLoop_nil]
  | cons n pre ih =>
    rw [List.cons_append, expandLoop_cons p n (pre ++ rest), ih, expandLoop_cons p n pre,
      setCount_cons p n pre]
    congr 1
    push_cast
    omega

theorem expandLoop_skip (p : Pipelined) (pre post : List String) (n : String) (l : Int)
    (acc : HandlerMap) (h : (p.Store.GetHandlerByName n).1 = none) :
    expandLoop p (pre ++ n :: post) l acc = expandLoop p (pre ++ post) l acc := by
  rw [expandLoop_append, expandLoop_append, expandLoop_missing p n post _ _ h]

theorem expandLoop_filter (p : Pipelined) (hs : List String) (l : Int) (acc : HandlerMap) :
    expandLoop p (hs.filter (resolves p)) l acc = expandLoop p hs l acc := by
  induction hs generalizing l acc with
  | nil => simp
  | cons n rest ih =>
    cases h : (p.Store.GetHandlerByName n).1 with
    | none =>
      rw [expandLoop_missing p n rest l acc h, List.filter_cons_of_neg (by simp [resolves, h]), ih]
    | some hd =>
      rw [List.filter_cons_of_pos (by simp [resolves, h])]
      by_cases ht : hd.Type_ = "set"
      · rw [expandLoop_set p n _ l acc hd h ht, expandLoop_set p n _ l acc hd h ht, ih]
      · rw [expandLoop_leaf p n _ l acc hd h ht, expandLoop_leaf p n _ l acc hd h ht, ih]

/-! ## Inserting and merging -/

theorem mergeInto_nil (acc : HandlerMap) : mergeInto acc [] = acc := rfl

theorem mergeInto_cons (acc : HandlerMap) (e : String × Handler) (m : HandlerMap) :
    mergeInto acc (e :: m) = mergeInto (insertIfAbsent acc e.1 e.2) m := rfl

theorem keys_insertIfAbsent (acc : HandlerMap) (k : String) (h : Handler) :
    keys (insertIfAbsent acc k h) = if k ∈ keys acc then keys acc else keys acc ++ [k] := by
  unfold insertIfAbsent keys
  split <;> simp

theorem mem_keys_insertIfAbsent (acc : HandlerMap) (k : String) (h : Handler) (x : String) :
    x ∈ keys (insertIfAbsent acc k h) ↔ x ∈ keys acc ∨ x = k := by
  rw [keys_insertIfAbsent]
  split
  · constructor
    · exact Or.inl
    · rintro (h1 | rfl)
      · exact h1
      · assumption
  · simp

theorem mem_keys_mergeInto (acc m : HandlerMap) (x : String) :
    x ∈ keys (mergeInto acc m) ↔ x ∈ keys acc ∨ x ∈ keys m := by
  induction m generalizing acc with
  | nil => simp [mergeInto_nil, keys]
  | cons e m ih =>
    rw [mergeInto_cons, ih, mem_keys_insertIfAbsent]
    simp only [keys, List.map_cons, List.mem_cons]
    tauto

theorem wellResolved_nil : WellResolved [] := by
  simp [WellResolved, keys]

theorem wellResolved_insert (acc : HandlerMap) (k : String) (h : Handler)
    (hacc : WellResolved acc) (ht : h.Type_ ≠ "set") (hk : k = h.Name) :
    WellResolved (insertIfAbsent acc k h) := by
  obtain ⟨hnd, hent⟩ := hacc
  refine ⟨?_, ?_⟩
  · rw [keys_insertIfAbsent]
    split
    · exact hnd
    · rename_i hk'
      rw [List.nodup_append]
      refine ⟨hnd, List.nodup_singleton _, ?_⟩
      intro a ha hb
      simp only [List.mem_singleton] at hb
      exact hk' (hb ▸ ha)
  · intro e he
    unfold insertIfAbsent at he
    split at he
    · exact hent e he
    · rcases List.mem_append.1 he with h1 | h1
      · exact hent e h1
      · simp only [List.mem_singleton] at h1
        subst h1
        exact ⟨ht, hk⟩

theorem wellResolved_merge (acc m : HandlerMap) (hacc : WellResolved acc)
    (hm : ∀ e ∈ m, e.2.Type_ ≠ "set" ∧ e.1 = e.2.Name) :
    WellResolved (mergeInto acc m) := by
  induction m generalizing acc with
  | nil => exact hacc
  | cons e m ih =>
    rw [mergeInto_cons]
    apply ih
    · exact wellResolved_insert acc e.1 e.2 hacc (hm e (List.mem_cons_self _ _)).1
        (hm e (List.mem_cons_self _ _)).2
    · intro x hx
      exact hm x (List.mem_cons_of_mem _ hx)

/-- A property of maps that holds of the empty map and is kept by inserting a
non-set handler under its name and by merging is kept by the whole loop, at
every level. -/
theorem expandLoop_preserves (p : Pipelined) (Q : HandlerMap → Prop) (hnil : Q [])
    (hins : ∀ acc h, Q acc → h.Type_ ≠ "set" → Q (insertIfAbsent acc h.Name h))
    (hmerge : ∀ acc m, Q acc → Q m → Q (mergeInto acc m))
    (hs : List String) (l : Int) (acc : HandlerMap) (hacc : Q acc) :
    Q (expandLoop p hs l acc) := by
  suffices H : ∀ n : Nat, ∀ (l : Int), (4 - l).toNat ≤ n → ∀ (hs : List String)
      (acc : HandlerMap), Q acc → Q (expandLoop p hs l acc) from
    H (4 - l).toNat l le_rfl hs acc hacc
  intro n
  induction n with
  | zero =>
    intro l hl hs
    induction hs generalizing l with
    | nil => intro acc hacc; rwa [expandLoop_nil]
    | cons x rest ih =>
      intro acc hacc
      cases h : (p.Store.GetHandlerByName x).1 with
      | none =>
        rw [expandLoop_missing p x rest l acc h]
        exact ih l hl acc hacc
      | some hd =>
        by_cases ht : hd.Type_ = "set"
        · rw [expandLoop_set p x rest l acc hd h ht,
            expandHandlers_deep p _ _ (by omega : 3 < l + 1)]
          exact ih (l + 1) (by omega) _ hacc
        · rw [expandLoop_leaf p x rest l acc hd h ht]
          exact ih l hl _ (hins acc hd hacc ht)
  | succ n IH =>
    intro l hl hs
    induction hs generalizing l with
    | nil => intro acc hacc; rwa [expandLoop_nil]
    | cons x rest ih =>
      intro acc hacc
      cases h : (p.Store.GetHandlerByName x).1 with
      | none =>
        rw [expandLoop_missing p x rest l acc h]
        exact ih l hl acc hacc
      | some hd =>
        by_cases ht : hd.Type_ = "set"
        · rw [expandLoop_set p x rest l acc hd h ht]
          apply ih (l + 1) (by omega)
          by_cases hdeep : 3 < l + 1
          · rw [expandHandlers_deep p _ _ hdeep]
            exact hacc
          · rw [expandHandlers_shallow p _ _ (by omega : l + 1 ≤ 3)]
            exact hmerge acc _ hacc (IH (l + 1) (by omega) _ [] hnil)
        · rw [expandLoop_leaf p x rest l acc hd h ht]
          exact ih l hl _ (hins acc hd hacc ht)

theorem expandLoop_wellResolved (p : Pipelined) (hs : List String) (l : Int)
    (acc : HandlerMap) (hacc : WellResolved acc) :
    WellResolved (expandLoop p hs l acc) :=
  expandLoop_preserves p WellResolved wellResolved_nil
    (fun acc h ha ht => wellResolved_insert acc h.Name h ha ht rfl)
    (fun acc m ha hm => wellResolved_merge acc m ha hm.2) hs l acc hacc

theorem expandHandlers_wellResolved (p : Pipelined) (hs : List String) (l : Int) :
    WellResolved (entries (expandHandlers p hs l).1) := by
  by_cases hl : 3 < l
  · rw [expandHandlers_deep p hs l hl]
    exact wellResolved_nil
  · rw [expandHandlers_shallow p hs l (by omega)]
    exact expandLoop_wellResolved p hs l [] wellResolved_nil

theorem keys_subset_expandLoop (p : Pipelined) (hs : List String) (l : Int)
    (acc : HandlerMap) (x : String) (hx : x ∈ keys acc) :
    x ∈ keys (expandLoop p hs l acc) := by
  induction hs generalizing l acc with
  | nil => rwa [expandLoop_nil]
  | cons n rest ih =>
    cases h : (p.Store.GetHandlerByName n).1 with
    | none =>
      rw [expandLoop_missing p n rest l acc h]
      exact ih l acc hx
    | some hd =>
      by_cases ht : hd.Type_ = "set"
      · rw [expandLoop_set p n rest l acc hd h ht]
        exact ih _ _ ((mem_keys_mergeInto _ _ _).2 (Or.inl hx))
      · rw [expandLoop_leaf p n rest l acc hd h ht]
        exact ih _ _ ((mem_keys_insertIfAbsent _ _ _ _).2 (Or.inl hx))

/-! ## The loop of `handleEvent` -/

theorem isFatal_iff (p : Pipelined) (event : Event) (e : String × Handler) :
    isFatal p event e = true ↔ (p.mutateEvent e.2 event).2 = none ∧ e.2.Type_ ≠ "pipe" := by
  simp [isFatal]

theorem pipeHandler_returned (p : Pipelined) (hexec : ExecContract p) (h : Handler)
    (d : Bytes) :
    ∃ r, pipeHandler p h d = Run.returned r := by
  have hc := hexec ⟨h.Pipe.Command, h.Pipe.Timeout, d, 0, ""⟩
  unfold pipeHandler
  simp only
  cases hres : p.ExecuteCommand ⟨h.Pipe.Command, h.Pipe.Timeout, d, 0, ""⟩ with
  | mk r e =>
    rw [hres] at hc
    cases e with
    | some err =>
      cases r with
      | none => exact ⟨_, rfl⟩
      | some x => exact ⟨_, rfl⟩
    | none =>
      cases r with
      | none => simp at hc
      | some x => exact ⟨_, rfl⟩

/-- The loop of `handleEvent` in closed form, for a primitive that keeps its
contract: it dispatches the entries ahead of the first fatal one, and fails
exactly when there is a fatal one. -/
theorem handleLoop_eq (p : Pipelined) (hexec : ExecContract p) (event : Event)
    (visited : HandlerMap) (calls : List PipeCall) :
    handleLoop p event visited calls =
      (calls ++ dispatchCalls p event (visited.takeWhile (fun e => !isFatal p event e)),
        Run.returned (if visited.any (isFatal p event) then some errUnknownType else none)) := by
  induction visited generalizing calls with
  | nil => simp [handleLoop, dispatchCalls]
  | cons e rest ih =>
    obtain ⟨k, h⟩ := e
    by_cases hm : (p.mutateEvent h event).2 = none
    · by_cases ht : h.Type_ = "pipe"
      · have hf : isFatal p event (k, h) = false := by simp [isFatal, ht]
        obtain ⟨r, hr⟩ := pipeHandler_returned p hexec h (p.mutateEvent h event).1
        simp only [handleLoop, hm, ne_eq, not_true_eq_false, if_false, ht, if_true, hr, ih,
          List.takeWhile_cons, hf, Bool.not_false, List.any_cons, Bool.false_or]
        simp [dispatchCalls, hm, hr]
      · have hf : isFatal p event (k, h) = true := by simp [isFatal, hm, ht]
        simp [handleLoop, hm, ht, hf, dispatchCalls]
    · have hf : isFatal p event (k, h) = false := by simp [isFatal, hm]
      simp only [handleLoop, ne_eq, hm, not_false_eq_true, if_true, ih,
        List.takeWhile_cons, hf, Bool.not_false, List.any_cons, Bool.false_or]
      simp [dispatchCalls, hm]

theorem takeWhile_eq_self {α : Type} (q : α → Bool) (l : List α) (h : ∀ x ∈ l, q x = true) :
    l.takeWhile q = l := by
  induction l with
  | nil => rfl
  | cons a l ih =>
    rw [List.takeWhile_cons, h a (List.mem_cons_self _ _), if_pos rfl,
      ih (fun x hx => h x (List.mem_cons_of_mem _ hx))]

theorem takeWhile_append_stop {α : Type} (q : α → Bool) (pre post : List α) (e : α)
    (he : q e = false) :
    (pre ++ e :: post).takeWhile q = pre.takeWhile q := by
  induction pre with
  | nil => simp [List.takeWhile_cons, he]
  | cons a pre ih =>
    simp only [List.cons_append, List.takeWhile_cons, ih]

theorem mem_dispatchCalls (p : Pipelined) (event : Event) (l : HandlerMap) (c : PipeCall) :
    c ∈ dispatchCalls p event l ↔
      ∃ e ∈ l, (p.mutateEvent e.2 event).2 = none ∧
        c = { handler := e.2, eventData := (p.mutateEvent e.2 event).1,
              result := pipeHandler p e.2 (p.mutateEvent e.2 event).1 } := by
  unfold dispatchCalls
  rw [List.mem_filterMap]
  constructor
  · rintro ⟨e, he, h⟩
    refine ⟨e, he, ?_⟩
    split at h
    · rename_i hm
      exact ⟨hm, (Option.some.inj h).symm⟩
    · simp at h
  · rintro ⟨e, he, hm, rfl⟩
    exact ⟨e, he, by simp [hm]⟩

theorem filter_key_eq_singleton (m : HandlerMap) (e : String × Handler)
    (hnd : (keys m).Nodup) (he : e ∈ m) :
    m.filter (fun x => decide (x.1 = e.1)) = [e] := by
  induction m with
  | nil => simp at he
  | cons a m ih =>
    simp only [keys, List.map_cons, List.nodup_cons] at hnd
    rcases List.mem_cons.1 he with rfl | hin
    · rw [List.filter_cons_of_pos (by simp)]
      congr 1
      rw [List.filter_eq_nil_iff]
      intro x hx
      simp only [decide_eq_true_eq]
      intro hxe
      exact hnd.1 (hxe ▸ List.mem_map_of_mem Prod.fst hx)
    · have hne : a.1 ≠ e.1 := by
        intro hae
        exact hnd.1 (hae ▸ List.mem_map_of_mem Prod.fst hin)
      rw [List.filter_cons_of_neg (by simpa using hne)]
      exact ih hnd.2 hin

/-- Filtering the calls by handler name is filtering the entries by key, when
every entry is stored under its handler's name. -/
theorem filter_dispatchCalls (p : Pipelined) (event : Event) (l : HandlerMap) (k : String)
    (hkey : ∀ e ∈ l, e.1 = e.2.Name) :
    (dispatchCalls p event l).filter (fun c => decide (c.handler.Name = k))
      = dispatchCalls p event (l.filter (fun x => decide (x.1 = k))) := by
  induction l with
  | nil => simp [dispatchCalls]
  | cons a l ih =>
    have ih' := ih (fun e he => hkey e (List.mem_cons_of_mem _ he))
    have ha := hkey a (List.mem_cons_self _ _)
    unfold dispatchCalls at ih' ⊢
    by_cases hm : (p.mutateEvent a.2 event).2 = none
    · by_cases hk : a.1 = k
      · rw [List.filter_cons_of_pos (by simpa using hk)]
        simp only [List.filterMap_cons, hm, if_true]
        rw [List.filter_cons_of_pos (by simpa [← ha] using hk), ih']
      · rw [List.filter_cons_of_neg (by simpa using hk)]
        simp only [List.filterMap_cons, hm, if_true]
        rw [List.filter_cons_of_neg (by simpa [← ha] using hk), ih']
    · by_cases hk : a.1 = k
      · rw [List.filter_cons_of_pos (by simpa using hk)]
        simp only [List.filterMap_cons, hm, if_false]
        rw [ih']
      · rw [List.filter_cons_of_neg (by simpa using hk)]
        simp only [List.filterMap_cons, hm, if_false]
        rw [ih']

theorem wellResolved_perm (m m' : HandlerMap) (hp : m'.Perm m) (h : WellResolved m) :
    WellResolved m' := by
  refine ⟨?_, fun e he => h.2 e (hp.mem_iff.1 he)⟩
  exact (List.Perm.nodup_iff (hp.map Prod.fst)).2 h.1

theorem resolved_wellResolved (p : Pipelined) (event : Event) :
    WellResolved (resolved p event) :=
  expandHandlers_wellResolved p event.Check.Handlers 1

theorem handleEvent_eq (p : Pipelined) (hexec : ExecContract p) (range : RangeOrder)
    (event : Event) :
    handleEvent p range event =
      (dispatchCalls p event
          ((range.visit (resolved p event)).takeWhile (fun e => !isFatal p event e)),
        Run.returned (if (range.visit (resolved p event)).any (isFatal p event)
          then some errUnknownType else none)) := by
  unfold handleEvent
  rw [handleLoop_eq p hexec]
  simp

theorem echoCommand_contract (e : Execution) :
    (echoCommand e).2 = none → (echoCommand e).1 ≠ none := by
  intro _
  simp [echoCommand]

/-! ## Chains and deep levels -/

theorem pipe_ne_set (h : Handler) (ht : h.Type_ = "pipe") : h.Type_ ≠ "set" := by
  rw [ht]
  decide

/-- Expanding the one-name list that starts a chain, at any level. -/
theorem expandHandlers_chain (p : Pipelined) (sets : List String) (leafName : String)
    (leaf : Handler) (hc : IsChain p sets leafName leaf) (l : Int) :
    expandHandlers p [chainHead sets leafName] l =
      if 3 < l then (none, some errTooDeep)
      else if l + (sets.length : Int) ≤ 3 then (some [(leaf.Name, leaf)], none)
      else (some [], none) := by
  induction sets generalizing l with
  | nil =>
    obtain ⟨h1, h2⟩ := hc
    by_cases hl : 3 < l
    · rw [expandHandlers_deep p _ _ hl, if_pos hl]
    · rw [expandHandlers_shallow p _ _ (by omega), if_neg hl, if_pos (by simp; omega)]
      simp only [chainHead]
      rw [expandLoop_leaf p leafName [] l [] leaf h1 (pipe_ne_set leaf h2), expandLoop_nil]
      simp [insertIfAbsent]
  | cons s rest ih =>
    obtain ⟨⟨h, h1, h2, h3⟩, hrest⟩ := hc
    by_cases hl : 3 < l
    · rw [expandHandlers_deep p _ _ hl, if_pos hl]
    · rw [expandHandlers_shallow p _ _ (by omega), if_neg hl]
      simp only [chainHead]
      rw [expandLoop_set p s [] l [] h h1 h2, expandLoop_nil, h3, ih hrest (l + 1)]
      simp only [List.length_cons, Nat.cast_add, Nat.cast_one]
      by_cases hl1 : 3 < l + 1
      · rw [if_pos hl1, if_neg (by omega)]
        simp [entries, mergeInto_nil]
      · rw [if_neg hl1]
        by_cases hl2 : l + 1 + (rest.length : Int) ≤ 3
        · rw [if_pos hl2, if_pos (by omega)]
          simp [entries, mergeInto, insertIfAbsent]
        · rw [if_neg hl2, if_neg (by omega)]
          simp [entries, mergeInto_nil]

/-- From level 3 on, a set handler met by the loop adds nothing: its nested
list would be expanded at a level above 3. -/
theorem expandLoop_set_deep (p : Pipelined) (n : String) (rest : List String) (l : Int)
    (acc : HandlerMap) (hl : 3 ≤ l) (hs : isSetName p n = true) :
    expandLoop p (n :: rest) l acc = expandLoop p rest (l + 1) acc := by
  unfold isSetName at hs
  cases h : (p.Store.GetHandlerByName n).1 with
  | none => simp [h] at hs
  | some hd =>
    simp only [h, decide_eq_true_eq] at hs
    rw [expandLoop_set p n rest l acc hd h hs, expandHandlers_deep p _ _ (by omega)]
    rfl

/-- From level 3 on, the loop no longer depends on the level. -/
theorem expandLoop_level_irrelevant (p : Pipelined) (hs : List String) (l l' : Int)
    (acc : HandlerMap) (hl : 3 ≤ l) (hl' : 3 ≤ l') :
    expandLoop p hs l acc = expandLoop p hs l' acc := by
  induction hs generalizing l l' acc with
  | nil => rw [expandLoop_nil, expandLoop_nil]
  | cons n rest ih =>
    cases h : (p.Store.GetHandlerByName n).1 with
    | none =>
      rw [expandLoop_missing p n rest l acc h, expandLoop_missing p n rest l' acc h]
      exact ih l l' acc hl hl'
    | some hd =>
      by_cases ht : hd.Type_ = "set"
      · have hset : isSetName p n = true := by simp [isSetName, h, ht]
        rw [expandLoop_set_deep p n rest l acc hl hset,
          expandLoop_set_deep p n rest l' acc hl' hset]
        exact ih _ _ acc (by omega) (by omega)
      · rw [expandLoop_leaf p n rest l acc hd h ht, expandLoop_leaf p n rest l' acc hd h ht]
        exact ih l l' _ hl hl'

/-- The key of a non-set handler named in the list is in the map the loop
returns. -/
theorem leaf_key_mem_expandLoop (p : Pipelined) (hs : List String) (l : Int)
    (acc : HandlerMap) (x : String) (hx : Handler) (hmem : x ∈ hs)
    (hres : (p.Store.GetHandlerByName x).1 = some hx) (ht : hx.Type_ ≠ "set") :
    hx.Name ∈ keys (expandLoop p hs l acc) := by
  obtain ⟨a, b, rfl⟩ := List.append_of_mem hmem
  rw [expandLoop_append, expandLoop_leaf p x b _ _ hx hres ht]
  apply keys_subset_expandLoop
  exact (mem_keys_insertIfAbsent _ _ _ _).2 (Or.inr rfl)

/-! ## The claims -/

/-- C1, evaluated at three sibling sets: expanding `["s1", "s2", "s3"]` at level
1, where each set lists one existing pipe handler, `expandHandlers` returns only
`p1` and `p2` (the third set is expanded at level 4 and dropped), whereas the
reference resolver with an immutable per-call depth returns `p1`, `p2` and `p3`;
the two results differ. -/
theorem expandHandlers_differs_from_expandRef :
    expandHandlers siblingPipeline ["s1", "s2", "s3"] 1
        = (some [("p1", pipeOf "p1"), ("p2", pipeOf "p2")], none)
    ∧ expandRef siblingPipeline ["s1", "s2", "s3"] 1
        = (some [("p1", pipeOf "p1"), ("p2", pipeOf "p2"), ("p3", pipeOf "p3")], none)
    ∧ expandHandlers siblingPipeline ["s1", "s2", "s3"] 1
        ≠ expandRef siblingPipeline ["s1", "s2", "s3"] 1 := by
  have h1 : expandHandlers siblingPipeline ["s1", "s2", "s3"] 1
      = (some [("p1", pipeOf "p1"), ("p2", pipeOf "p2")], none) := by
    simp [expandHandlers, expandLoop, siblingPipeline, tableStore, setOf, pipeOf, mergeInto,
      insertIfAbsent, entries]
  have h2 : expandRef siblingPipeline ["s1", "s2", "s3"] 1
      = (some [("p1", pipeOf "p1"), ("p2", pipeOf "p2"), ("p3", pipeOf "p3")], none) := by
    simp [expandRef, expandRefLoop, siblingPipeline, tableStore, setOf, pipeOf, mergeInto,
      insertIfAbsent, entries]
  refine ⟨h1, h2, ?_⟩
  rw [h1, h2]
  simp

/-- C2: `expandHandlers` returns an error exactly when `level > 3`, the error is
then the too-deep error and no map is returned; for `level ≤ 3` the error is nil
and a map is returned, whatever the store holds. In particular the call made by
`handleEvent`, at level 1, returns no error. -/
theorem expandHandlers_error_iff_too_deep (p : Pipelined) (handlers : List String)
    (level : Int) (event : Event) :
    ((expandHandlers p handlers level).2 ≠ none ↔ 3 < level)
    ∧ (expandHandlers p handlers level).2 = (if 3 < level then some errTooDeep else none)
    ∧ ((expandHandlers p handlers level).1 = none ↔ 3 < level)
    ∧ (expandHandlers p event.Check.Handlers 1).2 = none := by
  refine ⟨?_, ?_, ?_, ?_⟩
  · by_cases hl : 3 < level
    · simp [expandHandlers_deep p handlers level hl, hl]
    · simp [expandHandlers_shallow p handlers level (by omega), hl]
  · by_cases hl : 3 < level
    · simp [expandHandlers_deep p handlers level hl, hl]
    · simp [expandHandlers_shallow p handlers level (by omega), hl]
  · by_cases hl : 3 < level
    · simp [expandHandlers_deep p handlers level hl, hl]
    · simp [expandHandlers_shallow p handlers level (by omega), hl]
  · rw [expandHandlers_shallow p _ 1 (by decide)]

/-- C3: for a chain of set handlers that each list only the next element, the
last one listing one pipe leaf, expanded from the one-name list that starts the
chain at level 1: with at most two sets (the leaf is named in a list expanded at
level 3 or less) the result is exactly the leaf, with no error; with three or
more sets (the leaf is named in a list at level 4 or more) the result is the
empty map with no error, the over-deep branch being dropped. -/
theorem chain_depth_bound (p : Pipelined) (sets : List String) (leafName : String)
    (leaf : Handler) (hc : IsChain p sets leafName leaf) :
    (sets.length ≤ 2 →
      expandHandlers p [chainHead sets leafName] 1 = (some [(leaf.Name, leaf)], none))
    ∧ (3 ≤ sets.length →
      expandHandlers p [chainHead sets leafName] 1 = (some [], none)) := by
  have h := expandHandlers_chain p sets leafName leaf hc 1
  rw [if_neg (by decide)] at h
  constructor
  · intro hlen
    rw [h, if_pos (by omega)]
  · intro hlen
    rw [h, if_neg (by omega)]

/-- The depth bound on the chain `s0 → s1 → s2 → leaf`: started at `s1` the leaf is
named at level 3 and is resolved, started at `s0` it is named at level 4 and is
not. -/
theorem chain_depth_bound_witness :
    IsChain chainPipeline ["s1", "s2"] "leaf" (pipeOf "leaf")
    ∧ expandHandlers chainPipeline ["s1"] 1 = (some [("leaf", pipeOf "leaf")], none)
    ∧ IsChain chainPipeline ["s0", "s1", "s2"] "leaf" (pipeOf "leaf")
    ∧ expandHandlers chainPipeline ["s0"] 1 = (some [], none) := by
  have c3 : IsChain chainPipeline ["s1", "s2"] "leaf" (pipeOf "leaf") := by
    simp [IsChain, chainPipeline, tableStore, setOf, pipeOf, chainHead]
  have c4 : IsChain chainPipeline ["s0", "s1", "s2"] "leaf" (pipeOf "leaf") := by
    simp [IsChain, chainPipeline, tableStore, setOf, pipeOf, chainHead]
  exact ⟨c3, (chain_depth_bound chainPipeline ["s1", "s2"] "leaf" (pipeOf "leaf") c3).1
      (by decide), c4,
    (chain_depth_bound chainPipeline ["s0", "s1", "s2"] "leaf" (pipeOf "leaf") c4).2
      (by decide)⟩

/-- C4: at a level of at most 3, `expandHandlers` returns the same map and the
same nil error as on the list with every name the store has no handler for
removed. In particular, when `a` and `b` resolve to non-set handlers stored
under these names and `missing` resolves to nothing, expanding
`["a", "missing", "b"]` gives exactly the two entries `a` and `b` and no error. -/
theorem missing_handlers_skipped (p : Pipelined) (handlers : List String) (level : Int)
    (hl : level ≤ 3) :
    expandHandlers p handlers level = expandHandlers p (handlers.filter (resolves p)) level
    ∧ (expandHandlers p handlers level).2 = none
    ∧ ∀ ha hb : Handler,
        (p.Store.GetHandlerByName "a").1 = some ha → ha.Type_ ≠ "set" → ha.Name = "a" →
        (p.Store.GetHandlerByName "b").1 = some hb → hb.Type_ ≠ "set" → hb.Name = "b" →
        (p.Store.GetHandlerByName "missing").1 = none →
        expandHandlers p ["a", "missing", "b"] level = (some [("a", ha), ("b", hb)], none) := by
  refine ⟨?_, ?_, ?_⟩
  · rw [expandHandlers_shallow p _ _ hl, expandHandlers_shallow p _ _ hl, expandLoop_filter]
  · rw [expandHandlers_shallow p _ _ hl]
  · intro ha hb h1 h2 h3 h4 h5 h6 h7
    rw [expandHandlers_shallow p _ _ hl, expandLoop_leaf p "a" _ level [] ha h1 h2,
      expandLoop_missing p "missing" _ level _ h7, expandLoop_leaf p "b" _ level _ hb h4 h5,
      expandLoop_nil, h3, h6]
    simp [insertIfAbsent]

/-- The list `["a", "missing", "b"]` on a store that holds `a` and `b` only. -/
theorem missing_handlers_skipped_witness :
    expandHandlers abPipeline ["a", "missing", "b"] 1
        = expandHandlers abPipeline (["a", "missing", "b"].filter (resolves abPipeline)) 1
    ∧ ["a", "missing", "b"].filter (resolves abPipeline) = ["a", "b"]
    ∧ expandHandlers abPipeline ["a", "missing", "b"] 1
        = (some [("a", pipeOf "a"), ("b", pipeOf "b")], none) := by
  have h := missing_handlers_skipped abPipeline ["a", "missing", "b"] 1 (by decide)
  refine ⟨h.1, ?_, ?_⟩
  · simp [resolves, abPipeline, tableStore]
  · exact h.2.2 (pipeOf "a") (pipeOf "b") (by simp [abPipeline, tableStore])
      (by simp [pipeOf]) rfl (by simp [abPipeline, tableStore]) (by simp [pipeOf]) rfl
      (by simp [abPipeline, tableStore])

/-- C5, evaluated at a lookup that reports an error together with a handler:
the lookup of `a` fails to decode and returns an empty handler with the error.
The name is not skipped: the empty handler is in the result, under the empty
name, and the result differs from that of the list without `a`. `handleEvent`
then aborts the event with the unknown-handler-type error before `b` is
dispatched. -/
theorem lookup_error_with_handler_not_skipped :
    errorWithHandlerPipeline.Store.GetHandlerByName "a"
        = (some emptyHandler, some "unexpected end of JSON input")
    ∧ expandHandlers errorWithHandlerPipeline ["a", "b"] 1
        = (some [("", emptyHandler), ("b", pipeOf "b")], none)
    ∧ expandHandlers errorWithHandlerPipeline ["b"] 1 = (some [("b", pipeOf "b")], none)
    ∧ expandHandlers errorWithHandlerPipeline ["a", "b"] 1
        ≠ expandHandlers errorWithHandlerPipeline ["b"] 1
    ∧ handleEvent errorWithHandlerPipeline insertionOrder (eventFor ["a", "b"])
        = ([], Run.returned (some errUnknownType)) := by
  have h1 : expandHandlers errorWithHandlerPipeline ["a", "b"] 1
      = (some [("", emptyHandler), ("b", pipeOf "b")], none) := by
    simp [expandHandlers, expandLoop, errorWithHandlerPipeline, tableStore, emptyHandler,
      pipeOf, insertIfAbsent]
  have h2 : expandHandlers errorWithHandlerPipeline ["b"] 1
      = (some [("b", pipeOf "b")], none) := by
    simp [expandHandlers, expandLoop, errorWithHandlerPipeline, tableStore, pipeOf,
      insertIfAbsent]
  refine ⟨by simp [errorWithHandlerPipeline], h1, h2, ?_, ?_⟩
  · rw [h1, h2]
    simp
  · unfold handleEvent resolved
    rw [show (eventFor ["a", "b"]).Check.Handlers = ["a", "b"] from rfl, h1]
    simp [entries, insertionOrder, handleLoop, errorWithHandlerPipeline, plainMutator,
      emptyHandler]

/-- The path that does skip: a name for which the lookup returns no handler, with
an error or without one, is skipped wherever it stands in the list: the map and
the error returned are those of the list without it. -/
theorem lookup_without_handler_skipped (p : Pipelined) (pre post : List String)
    (n : String) (level : Int) (h : (p.Store.GetHandlerByName n).1 = none) :
    expandHandlers p (pre ++ n :: post) level = expandHandlers p (pre ++ post) level := by
  by_cases hl : 3 < level
  · rw [expandHandlers_deep p _ _ hl, expandHandlers_deep p _ _ hl]
  · rw [expandHandlers_shallow p _ _ (by omega), expandHandlers_shallow p _ _ (by omega),
      expandLoop_skip p pre post n level [] h]

/-- The name `down`, whose lookup reports a storage error and no handler,
between `a` and `b`. -/
theorem lookup_without_handler_skipped_witness :
    (errorOnlyPipeline.Store.GetHandlerByName "down").2 ≠ none
    ∧ expandHandlers errorOnlyPipeline (["a"] ++ "down" :: ["b"]) 1
        = expandHandlers errorOnlyPipeline (["a"] ++ ["b"]) 1 :=
  ⟨by simp [errorOnlyPipeline],
    lookup_without_handler_skipped errorOnlyPipeline ["a"] ["b"] "down" 1
      (by simp [errorOnlyPipeline])⟩

/-- C6: every entry of the map returned by `expandHandlers`, for every store
(also one that returns a handler under another name than its own), every list
and every level, holds a handler whose type is not `set` under the key equal to
the handler's name; so no handler over which `handleEvent` ranges, in whatever
order, has type `set`. -/
theorem resolved_set_invariant (p : Pipelined) (handlers : List String) (level : Int)
    (range : RangeOrder) (event : Event) :
    (∀ e ∈ entries (expandHandlers p handlers level).1, e.2.Type_ ≠ "set" ∧ e.1 = e.2.Name)
    ∧ (∀ e ∈ range.visit (resolved p event), e.2.Type_ ≠ "set") := by
  constructor
  · exact (expandHandlers_wellResolved p handlers level).2
  · intro e he
    exact ((resolved_wellResolved p event).2 e ((range.perm _).mem_iff.1 he)).1

/-- The store returns the handler named `real` for the name `alias`: the entry
is stored under `real`. -/
theorem resolved_set_invariant_witness :
    ("real", pipeOf "real") ∈ entries (expandHandlers aliasPipeline ["alias"] 1).1
    ∧ (pipeOf "real").Type_ ≠ "set" ∧ "real" = (pipeOf "real").Name := by
  have hmem : ("real", pipeOf "real") ∈ entries (expandHandlers aliasPipeline ["alias"] 1).1 := by
    simp [expandHandlers, expandLoop, aliasPipeline, tableStore, pipeOf, insertIfAbsent, entries]
  exact ⟨hmem, (resolved_set_invariant aliasPipeline ["alias"] 1 insertionOrder
    (eventFor [])).1 ("real", pipeOf "real") hmem⟩

/-- The primitive that returns neither an execution nor an error makes
`pipeHandler` panic in the first dispatch: `handleEvent` does not return, and
the second handler is not reached. -/
theorem handleEvent_panics_on_nil_execution :
    handleEvent nilResultPipeline insertionOrder (eventFor ["a", "b"])
      = ([{ handler := pipeOf "a", eventData := [123, 125], result := Run.panicked }],
          Run.panicked) := by
  have hres : resolved nilResultPipeline (eventFor ["a", "b"])
      = [("a", pipeOf "a"), ("b", pipeOf "b")] := by
    simp [resolved, eventFor, expandHandlers, expandLoop, nilResultPipeline, tableStore,
      pipeOf, insertIfAbsent, entries]
  unfold handleEvent
  rw [hres]
  simp [handleLoop, insertionOrder, nilResultPipeline, plainMutator, pipeOf, pipeHandler,
    nilCommand]

/-- C7: for an execution primitive that keeps its contract (a nil error comes
with a non-nil execution), when every resolved handler has type `pipe`, then in
every iteration order `handleEvent` returns nil, its `pipeHandler` invocations
are those of the visited entries whose mutation succeeds, in the order visited;
for a resolved handler whose mutation succeeds there is exactly one invocation
with its name, made with this handler and its mutated payload; and for one whose
mutation fails there is none. -/
theorem exactly_once_dispatch (p : Pipelined) (hexec : ExecContract p) (range : RangeOrder)
    (event : Event) (hpipe : ∀ e ∈ resolved p event, e.2.Type_ = "pipe") :
    (handleEvent p range event).2 = Run.returned none
    ∧ (handleEvent p range event).1 = dispatchCalls p event (range.visit (resolved p event))
    ∧ (∀ e ∈ resolved p event, (p.mutateEvent e.2 event).2 = none →
        (handleEvent p range event).1.filter (fun c => decide (c.handler.Name = e.1))
          = [{ handler := e.2, eventData := (p.mutateEvent e.2 event).1,
               result := pipeHandler p e.2 (p.mutateEvent e.2 event).1 }])
    ∧ (∀ e ∈ resolved p event, (p.mutateEvent e.2 event).2 ≠ none →
        ∀ c ∈ (handleEvent p range event).1, c.handler.Name ≠ e.1) := by
  have hperm := range.perm (resolved p event)
  have hwr : WellResolved (range.visit (resolved p event)) :=
    wellResolved_perm _ _ hperm (resolved_wellResolved p event)
  have hnofatal : ∀ e ∈ range.visit (resolved p event), (!isFatal p event e) = true := by
    intro e he
    simp [isFatal, hpipe e (hperm.mem_iff.1 he)]
  have hcalls : (handleEvent p range event).1
      = dispatchCalls p event (range.visit (resolved p event)) := by
    rw [handleEvent_eq p hexec, takeWhile_eq_self _ _ hnofatal]
  refine ⟨?_, hcalls, ?_, ?_⟩
  · rw [handleEvent_eq p hexec]
    have hany : (range.visit (resolved p event)).any (isFatal p event) = false := by
      rw [List.any_eq_false]
      intro e he
      simpa using hnofatal e he
    simp [hany]
  · intro e he hm
    rw [hcalls, filter_dispatchCalls p event _ e.1 (fun x hx => (hwr.2 x hx).2),
      filter_key_eq_singleton _ e hwr.1 (hperm.mem_iff.2 he)]
    simp [dispatchCalls, hm]
  · intro e he hm c hc hname
    rw [hcalls, mem_dispatchCalls] at hc
    obtain ⟨e', he', hm', rfl⟩ := hc
    have hk' : e'.1 = e.1 := by rw [(hwr.2 e' he').2]; exact hname
    have heq : e' = e := by
      have h1 := filter_key_eq_singleton _ e hwr.1 (hperm.mem_iff.2 he)
      have h2 : e' ∈ (range.visit (resolved p event)).filter (fun x => decide (x.1 = e.1)) :=
        List.mem_filter.2 ⟨he', by simpa using hk'⟩
      rw [h1] at h2
      simpa using h2
    exact hm (heq ▸ hm')

/-- The leaf `h` is named directly, through the set `s1` twice and through the
nested set `both`; the mutation fails for `b`. One invocation is made, for
`h`. -/
theorem exactly_once_dispatch_witness :
    ExecContract sharedLeafPipeline
    ∧ resolved sharedLeafPipeline (eventFor ["both", "b", "s1", "h"])
        = [("h", pipeOf "h"), ("b", pipeOf "b")]
    ∧ (handleEvent sharedLeafPipeline reverseOrder (eventFor ["both", "b", "s1", "h"])).2
        = Run.returned none
    ∧ (handleEvent sharedLeafPipeline reverseOrder (eventFor ["both", "b", "s1", "h"])).1.filter
          (fun c => decide (c.handler.Name = "h"))
        = [{ handler := pipeOf "h", eventData := [123, 125],
             result := pipeHandler sharedLeafPipeline (pipeOf "h") [123, 125] }]
    ∧ ∀ c ∈ (handleEvent sharedLeafPipeline reverseOrder (eventFor ["both", "b", "s1", "h"])).1,
        c.handler.Name ≠ "b" := by
  have hexec : ExecContract sharedLeafPipeline := fun e => echoCommand_contract e
  have hres : resolved sharedLeafPipeline (eventFor ["both", "b", "s1", "h"])
      = [("h", pipeOf "h"), ("b", pipeOf "b")] := by
    simp [resolved, eventFor, expandHandlers, expandLoop, sharedLeafPipeline, tableStore, setOf,
      pipeOf, mergeInto, insertIfAbsent, entries]
  have hpipe : ∀ e ∈ resolved sharedLeafPipeline (eventFor ["both", "b", "s1", "h"]),
      e.2.Type_ = "pipe" := by
    rw [hres]
    simp [pipeOf]
  have h := exactly_once_dispatch sharedLeafPipeline hexec reverseOrder
    (eventFor ["both", "b", "s1", "h"]) hpipe
  refine ⟨hexec, hres, h.1, ?_, ?_⟩
  · exact h.2.2.1 ("h", pipeOf "h") (by rw [hres]; simp)
      (by simp [sharedLeafPipeline, failingFor, pipeOf])
  · exact h.2.2.2 ("b", pipeOf "b") (by rw [hres]; simp)
      (by simp [sharedLeafPipeline, failingFor, pipeOf])

/-- C8, as stated, fails: the resolved set holds the handler `w` of type
`webhook`, its mutation fails, the execution primitive keeps its contract, and
`handleEvent` returns nil and dispatches the handler `c` visited after `w`. -/
theorem unknown_type_skipped_when_mutation_fails :
    ExecContract webhookMutationFails
    ∧ ("w", webhookOf "w") ∈ resolved webhookMutationFails (eventFor ["a", "w", "c"])
    ∧ (webhookOf "w").Type_ ≠ "pipe"
    ∧ insertionOrder.visit (resolved webhookMutationFails (eventFor ["a", "w", "c"]))
        = [("a", pipeOf "a")] ++ ("w", webhookOf "w") :: [("c", pipeOf "c")]
    ∧ (handleEvent webhookMutationFails insertionOrder (eventFor ["a", "w", "c"])).2
        = Run.returned none
    ∧ (handleEvent webhookMutationFails insertionOrder (eventFor ["a", "w", "c"])).1.map
          (fun c => c.handler)
        = [pipeOf "a", pipeOf "c"] := by
  have hres : resolved webhookMutationFails (eventFor ["a", "w", "c"])
      = [("a", pipeOf "a"), ("w", webhookOf "w"), ("c", pipeOf "c")] := by
    simp [resolved, eventFor, expandHandlers, expandLoop, webhookMutationFails, tableStore,
      pipeOf, webhookOf, insertIfAbsent, entries]
  refine ⟨fun e => echoCommand_contract e, by rw [hres]; simp, by simp [webhookOf],
    by rw [hres]; rfl, ?_, ?_⟩
  · unfold handleEvent
    rw [hres]
    simp [handleLoop, insertionOrder, webhookMutationFails, failingFor, pipeOf, webhookOf,
      pipeHandler, echoCommand]
  · unfold handleEvent
    rw [hres]
    simp [handleLoop, insertionOrder, webhookMutationFails, failingFor, pipeOf, webhookOf,
      pipeHandler, echoCommand]

/-- C8, amended: for an execution primitive that keeps its contract, when the
iteration visits a handler whose type is not `pipe` and whose mutation
succeeds, `handleEvent` returns the unknown-handler-type error; no
`pipeHandler` invocation is made for this handler or for one visited after it;
the invocations made are those of the entries visited before it, up to the
first such handler, and they are all of them when no entry before it is of this
kind. -/
theorem unknown_type_abort (p : Pipelined) (hexec : ExecContract p) (range : RangeOrder)
    (event : Event) (pre post : HandlerMap) (k : String) (h : Handler)
    (hvisit : range.visit (resolved p event) = pre ++ (k, h) :: post)
    (hm : (p.mutateEvent h event).2 = none) (ht : h.Type_ ≠ "pipe") :
    (handleEvent p range event).2 = Run.returned (some errUnknownType)
    ∧ (∀ c ∈ (handleEvent p range event).1, ∀ e ∈ (k, h) :: post, c.handler.Name ≠ e.1)
    ∧ (handleEvent p range event).1
        = dispatchCalls p event (pre.takeWhile (fun e => !isFatal p event e))
    ∧ ((∀ e ∈ pre, isFatal p event e = false) →
        (handleEvent p range event).1 = dispatchCalls p event pre) := by
  have hfatal : isFatal p event (k, h) = true := (isFatal_iff p event (k, h)).2 ⟨hm, ht⟩
  have hwr : WellResolved (pre ++ (k, h) :: post) := by
    rw [← hvisit]
    exact wellResolved_perm _ _ (range.perm _) (resolved_wellResolved p event)
  have hcalls : (handleEvent p range event).1
      = dispatchCalls p event (pre.takeWhile (fun e => !isFatal p event e)) := by
    rw [handleEvent_eq p hexec, hvisit,
      takeWhile_append_stop _ pre post (k, h) (by simp [hfatal])]
  refine ⟨?_, ?_, hcalls, ?_⟩
  · rw [handleEvent_eq p hexec, hvisit]
    simp [hfatal]
  · intro c hc e he hname
    rw [hcalls, mem_dispatchCalls] at hc
    obtain ⟨e', he', -, rfl⟩ := hc
    have hepre : e' ∈ pre := (List.takeWhile_sublist _).subset he'
    have hkey' : e'.1 = e'.2.Name := (hwr.2 e' (List.mem_append_left _ hepre)).2
    have hnd := hwr.1
    simp only [keys, List.map_append] at hnd
    have hdisj := (List.nodup_append.1 hnd).2.2
    exact hdisj (List.mem_map_of_mem Prod.fst hepre)
      (by rw [hkey']; simp only at hname; rw [hname]; exact List.mem_map_of_mem Prod.fst he)
  · intro hpre
    rw [hcalls, takeWhile_eq_self _ _ (fun e he => by simp [hpre e he])]

/-- The handlers `a`, `w` (a webhook) and `c` visited in reverse: `c` is
dispatched, the loop aborts on `w`, and `a` is not dispatched. -/
theorem unknown_type_abort_witness :
    ExecContract webhookPipeline
    ∧ reverseOrder.visit (resolved webhookPipeline (eventFor ["a", "w", "c"]))
        = [("c", pipeOf "c")] ++ ("w", webhookOf "w") :: [("a", pipeOf "a")]
    ∧ (handleEvent webhookPipeline reverseOrder (eventFor ["a", "w", "c"])).2
        = Run.returned (some errUnknownType)
    ∧ (handleEvent webhookPipeline reverseOrder (eventFor ["a", "w", "c"])).1
        = dispatchCalls webhookPipeline (eventFor ["a", "w", "c"]) [("c", pipeOf "c")] := by
  have hexec : ExecContract webhookPipeline := fun e => echoCommand_contract e
  have hres : reverseOrder.visit (resolved webhookPipeline (eventFor ["a", "w", "c"]))
      = [("c", pipeOf "c")] ++ ("w", webhookOf "w") :: [("a", pipeOf "a")] := by
    simp [resolved, eventFor, expandHandlers, expandLoop, webhookPipeline, tableStore,
      pipeOf, webhookOf, insertIfAbsent, entries, reverseOrder]
  have h := unknown_type_abort webhookPipeline hexec reverseOrder (eventFor ["a", "w", "c"])
    [("c", pipeOf "c")] [("a", pipeOf "a")] "w" (webhookOf "w") hres
    (by simp [webhookPipeline, plainMutator]) (by simp [webhookOf])
  exact ⟨hexec, hres, h.1, h.2.2.2 (by simp [isFatal, pipeOf])⟩

/-- C9: for an execution primitive that keeps its contract (a nil error comes
with a non-nil execution) and whatever the iteration order, `handleEvent`
returns, and it returns an error exactly when the resolved handler set holds a
handler whose mutation succeeds and whose type is not `pipe`; the error is then
the unknown-handler-type error, and two iteration orders return the same value.
No result of the store or of the mutator and no failed execution makes it fail
otherwise. -/
theorem handleEvent_error_iff (p : Pipelined) (hexec : ExecContract p)
    (range range' : RangeOrder) (event : Event) :
    ((∃ err, (handleEvent p range event).2 = Run.returned (some err)) ↔
        ∃ e ∈ resolved p event, (p.mutateEvent e.2 event).2 = none ∧ e.2.Type_ ≠ "pipe")
    ∧ ((handleEvent p range event).2 = Run.returned none
        ∨ (handleEvent p range event).2 = Run.returned (some errUnknownType))
    ∧ (handleEvent p range event).2 = (handleEvent p range' event).2 := by
  have key : ∀ r : RangeOrder, (r.visit (resolved p event)).any (isFatal p event) = true ↔
      ∃ e ∈ resolved p event, (p.mutateEvent e.2 event).2 = none ∧ e.2.Type_ ≠ "pipe" := by
    intro r
    rw [List.any_eq_true]
    constructor
    · rintro ⟨e, he, hf⟩
      exact ⟨e, (r.perm _).mem_iff.1 he, (isFatal_iff p event e).1 hf⟩
    · rintro ⟨e, he, hf⟩
      exact ⟨e, (r.perm _).mem_iff.2 he, (isFatal_iff p event e).2 hf⟩
  refine ⟨?_, ?_, ?_⟩
  · rw [handleEvent_eq p hexec, ← key range]
    by_cases hany : (range.visit (resolved p event)).any (isFatal p event) = true
    · simp [hany]
    · simp [hany]
  · rw [handleEvent_eq p hexec]
    by_cases hany : (range.visit (resolved p event)).any (isFatal p event) = true
    · simp [hany]
    · simp [hany]
  · rw [handleEvent_eq p hexec, handleEvent_eq p hexec]
    by_cases hany : (range.visit (resolved p event)).any (isFatal p event) = true
    · have hany' := (key range').2 ((key range).1 hany)
      simp [hany, hany']
    · have hany' : ¬ (range'.visit (resolved p event)).any (isFatal p event) = true :=
        fun h => hany ((key range).2 ((key range').1 h))
      simp [hany, hany']

/-- The handlers `a`, `w` (a webhook) and `c` with a mutator that never fails:
an error is returned in insertion order, and the same in reverse order. -/
theorem handleEvent_error_iff_witness :
    ExecContract webhookPipeline
    ∧ (∃ err, (handleEvent webhookPipeline insertionOrder (eventFor ["a", "w", "c"])).2
        = Run.returned (some err))
    ∧ (handleEvent webhookPipeline insertionOrder (eventFor ["a", "w", "c"])).2
        = (handleEvent webhookPipeline reverseOrder (eventFor ["a", "w", "c"])).2 := by
  have hexec : ExecContract webhookPipeline := fun e => echoCommand_contract e
  have hres : resolved webhookPipeline (eventFor ["a", "w", "c"])
      = [("a", pipeOf "a"), ("w", webhookOf "w"), ("c", pipeOf "c")] := by
    simp [resolved, eventFor, expandHandlers, expandLoop, webhookPipeline, tableStore,
      pipeOf, webhookOf, insertIfAbsent, entries]
  have h := handleEvent_error_iff webhookPipeline hexec insertionOrder reverseOrder
    (eventFor ["a", "w", "c"])
  refine ⟨hexec, h.1.2 ⟨("w", webhookOf "w"), by rw [hres]; simp, ?_, ?_⟩, h.2.2⟩
  · simp [webhookPipeline, plainMutator]
  · simp [webhookOf]

/-- C10: when the name `n` of the list `pre ++ n :: post` resolves to the set
handler `h`, and `pre` holds `k - 1` names that resolve to sets, the loop of
`expandHandlers` started at level `L` merges the expansion of `h.Handlers` at
level `L + k` and goes on at that level. So, from the top-level call at level 1:
a set with two or more sets before it is expanded above level 3, which fails,
and it adds nothing (the result is that of the list without it), also when it
lists only existing pipe handlers; with at most one set before it, the name of
every non-set handler it lists is a key of the result. -/
theorem sibling_dependent_depth (p : Pipelined) (pre post : List String) (n : String)
    (h : Handler) (hn : (p.Store.GetHandlerByName n).1 = some h) (ht : h.Type_ = "set") :
    (∀ (L : Int) (acc : HandlerMap),
      expandLoop p (pre ++ n :: post) L acc
        = expandLoop p post (L + ((setCount p pre + 1 : Nat) : Int))
            (mergeInto (expandLoop p pre L acc)
              (entries (expandHandlers p h.Handlers
                (L + ((setCount p pre + 1 : Nat) : Int))).1)))
    ∧ (2 ≤ setCount p pre →
        expandHandlers p h.Handlers (1 + ((setCount p pre + 1 : Nat) : Int))
            = (none, some errTooDeep)
        ∧ expandHandlers p (pre ++ n :: post) 1 = expandHandlers p (pre ++ post) 1)
    ∧ (setCount p pre ≤ 1 →
        ∀ (x : String) (hx : Handler), x ∈ h.Handlers →
          (p.Store.GetHandlerByName x).1 = some hx → hx.Type_ ≠ "set" →
          hx.Name ∈ keys (entries (expandHandlers p (pre ++ n :: post) 1).1)) := by
  have hstep : ∀ (L : Int) (acc : HandlerMap),
      expandLoop p (pre ++ n :: post) L acc
        = expandLoop p post (L + ((setCount p pre + 1 : Nat) : Int))
            (mergeInto (expandLoop p pre L acc)
              (entries (expandHandlers p h.Handlers
                (L + ((setCount p pre + 1 : Nat) : Int))).1)) := by
    intro L acc
    rw [expandLoop_append, expandLoop_set p n post _ _ h hn ht]
    have e : L + ((setCount p pre : Nat) : Int) + 1
        = L + ((setCount p pre + 1 : Nat) : Int) := by
      push_cast
      omega
    rw [e]
  refine ⟨hstep, ?_, ?_⟩
  · intro hk
    have hdeep : (3 : Int) < 1 + ((setCount p pre + 1 : Nat) : Int) := by
      push_cast
      omega
    refine ⟨expandHandlers_deep p _ _ hdeep, ?_⟩
    rw [expandHandlers_shallow p _ 1 (by decide), expandHandlers_shallow p _ 1 (by decide),
      hstep, expandHandlers_deep p _ _ hdeep, expandLoop_append p pre post]
    simp only [entries, mergeInto_nil]
    rw [expandLoop_level_irrelevant p post _ (1 + ((setCount p pre : Nat) : Int)) _
      (by omega) (by omega)]
  · intro hk x hx hmem hres hxt
    have hshallow : 1 + ((setCount p pre + 1 : Nat) : Int) ≤ 3 := by
      push_cast
      omega
    rw [expandHandlers_shallow p _ 1 (by decide), hstep,
      expandHandlers_shallow p _ _ hshallow]
    apply keys_subset_expandLoop
    rw [mem_keys_mergeInto]
    right
    exact leaf_key_mem_expandLoop p h.Handlers _ [] x hx hmem hres hxt

/-- The set `s3` as third, second and first set of the top-level list. -/
theorem sibling_dependent_depth_witness :
    expandHandlers siblingPipeline (["s1", "s2"] ++ "s3" :: []) 1
        = expandHandlers siblingPipeline (["s1", "s2"] ++ []) 1
    ∧ "p3" ∈ keys (entries (expandHandlers siblingPipeline (["s1"] ++ "s3" :: ["s2"]) 1).1)
    ∧ "p3" ∈ keys (entries (expandHandlers siblingPipeline ([] ++ "s3" :: ["s1", "s2"]) 1).1) := by
  have hs3 : (siblingPipeline.Store.GetHandlerByName "s3").1 = some (setOf "s3" ["p3"]) := by
    simp [siblingPipeline, tableStore]
  have hp3 : (siblingPipeline.Store.GetHandlerByName "p3").1 = some (pipeOf "p3") := by
    simp [siblingPipeline, tableStore]
  refine ⟨?_, ?_, ?_⟩
  · exact ((sibling_dependent_depth siblingPipeline ["s1", "s2"] [] "s3" (setOf "s3" ["p3"])
      hs3 rfl).2.1 (by simp [setCount, isSetName, siblingPipeline, tableStore, setOf])).2
  · exact (sibling_dependent_depth siblingPipeline ["s1"] ["s2"] "s3" (setOf "s3" ["p3"])
      hs3 rfl).2.2 (by simp [setCount, isSetName, siblingPipeline, tableStore, setOf])
      "p3" (pipeOf "p3") (by simp [setOf]) hp3 (by simp [pipeOf])
  · exact (sibling_dependent_depth siblingPipeline [] ["s1", "s2"] "s3" (setOf "s3" ["p3"])
      hs3 rfl).2.2 (by simp [setCount]) "p3" (pipeOf "p3") (by simp [setOf]) hp3
      (by simp [pipeOf])

end Sensu
